import Mathlib

/-!
Verification of the streaming markdown-to-terminal renderer in `src/main.rs`.

The renderer (`render_markdown`) consumes a sequence of structural markdown
events and produces ANSI-styled terminal output while tracking nested
list/link context and coalescing blank lines.  We embed the renderer as a
pure step function on an explicit state, producing output as a list of
chunks: visible text, newline, a style-start escape sequence, or the reset
escape sequence.  Printing a chunk list is concatenation of its pieces, so
the embedding loses no information about the byte stream while keeping the
escape/visible distinction needed for width accounting and style balance.
-/

set_option maxRecDepth 4000

namespace GeminiCli

/-! ### ANSI constants (from the top of `src/main.rs`) -/

def RESET : String := "\x1b[0m"

def BOLD : String := "\x1b[1m"

def DIM : String := "\x1b[2m"

def ITALIC : String := "\x1b[3m"

def HEADING_COLOR : String := "\x1b[38;5;40m"

def BLUE : String := "\x1b[34m"

def KEYWORD_COLOR : String := "\x1b[38;5;111m"

def YELLOW : String := "\x1b[33m"

def MAGENTA : String := "\x1b[35m"

def STRIKETHROUGH : String := "\x1b[9m"

def LIST_ITEM_BULLET : String := "▸"

/-! ### Output chunks -/

/-- One printed piece of output: visible text, a newline, a style-start
escape sequence (any escape other than the reset), or the reset escape. -/
inductive Chunk
  | text (s : String)
  | newline
  | style (code : String)
  | reset
deriving DecidableEq

/-- The visible characters a chunk contributes (escape sequences occupy no
terminal columns, mirroring the visible-width convention of the spec). -/
def chunkChars : Chunk → List Char
  | .text t => t.toList
  | .newline => ['\n']
  | .style _ => []
  | .reset => []

/-- All visible characters of an output chunk list, in order. -/
def charsOf : List Chunk → List Char
  | [] => []
  | c :: rest => chunkChars c ++ charsOf rest

/-- The rendered output with all escape sequences removed. -/
def strippedOutput (out : List Chunk) : String := String.mk (charsOf out)

/-! ### String helpers modelling the Rust std primitives used by the code -/

/-- Split a character list at newline characters (the separators are
dropped; `n` separators yield `n+1` segments). -/
def splitOnNl : List Char → List (List Char)
  | [] => [[]]
  | c :: rest =>
      let r := splitOnNl rest
      if c = '\n' then [] :: r
      else (c :: r.headD []) :: r.tail

/-- Drop one trailing carriage return, as Rust `str::lines` does. -/
def stripCr (l : List Char) : List Char :=
  if l.getLast? = some '\r' then l.dropLast else l

/-- Rust `str::lines`: split at newlines, dropping a final empty segment
produced by a trailing newline, and stripping a trailing `\r` per line. -/
def rustLines (s : String) : List String :=
  let parts := splitOnNl s.toList
  let parts := if parts.getLast? = some [] then parts.dropLast else parts
  parts.map (fun l => String.mk (stripCr l))

/-- Rust `str::trim`: remove leading and trailing whitespace. -/
def rustTrim (s : String) : String :=
  String.mk (((s.toList.dropWhile Char.isWhitespace).reverse.dropWhile
    Char.isWhitespace).reverse)

/-- Rust `trim_start_matches('\n').trim_end_matches('\n')` as used by
`render_text`. -/
def trimNewlines (s : String) : String :=
  String.mk (((s.toList.dropWhile (fun c => c = '\n')).reverse.dropWhile
    (fun c => c = '\n')).reverse)

/-- Rust `str::repeat`. -/
def strRepeat (s : String) : Nat → String
  | 0 => ""
  | n + 1 => s ++ strRepeat s n

/-- Rust format specifier `{:2}`: decimal digits right-justified to a
minimum width of two columns. -/
def fmtWidth2 (n : Nat) : String :=
  let d := toString n
  if d.length < 2 then strRepeat " " (2 - d.length) ++ d else d

/-- Maximum of a list of naturals (0 for the empty list). -/
def maxNat (l : List Nat) : Nat := l.foldr Nat.max 0

/-- Number of newline chunks in an output fragment. -/
def countNewlines : List Chunk → Nat
  | [] => 0
  | Chunk.newline :: rest => countNewlines rest + 1
  | _ :: rest => countNewlines rest

/-- The visible lines of an output fragment: strip escapes, split at
newlines. -/
def visibleLines (out : List Chunk) : List String :=
  (splitOnNl (charsOf out)).map String.mk

/-- Visible width of the widest output line. -/
def maxLineWidth (out : List Chunk) : Nat :=
  maxNat ((splitOnNl (charsOf out)).map List.length)

/-! ### The text wrapper -/

/-- Split a character list at ASCII space characters. -/
def splitOnSpace : List Char → List (List Char)
  | [] => [[]]
  | c :: rest =>
      let r := splitOnSpace rest
      if c = ' ' then [] :: r
      else (c :: r.headD []) :: r.tail

/-- The words of a line: segments between ASCII spaces, empty segments
dropped (the `AsciiSpace` word separator configured in `render_markdown`). -/
def wordsOfLine (line : String) : List String :=
  ((splitOnSpace line.toList).filter (fun w => w ≠ [])).map String.mk

/-- Join words with single spaces. -/
def joinWords : List String → String
  | [] => ""
  | [w] => w
  | w :: ws => w ++ " " ++ joinWords ws

/-- Greedy line filling: `cur` is the line under construction (nonempty),
`curLen` its width; a word joins the line when it fits after a separating
space, otherwise the line is closed and the word opens a new one.  Words
are never split, so a word wider than the budget yields an overlong line. -/
def wrapFill (width : Nat) (cur : List String) (curLen : Nat) :
    List String → List (List String)
  | [] => [cur]
  | w :: ws =>
      if curLen + 1 + w.length ≤ width then
        wrapFill width (cur ++ [w]) (curLen + 1 + w.length) ws
      else
        cur :: wrapFill width [w] w.length ws

/-- Modelled from the spec: the external `textwrap` crate's `wrap` call
(§4.2 Text Wrapper), which is not part of this repository's sources.  The
configuration at the call site is `break_words(false)` with the ASCII-space
word separator; the contract is lines within the column budget with no
word split.  Concretely modelled as greedy first-fit filling. -/
def wrap (line : String) (width : Nat) : List String :=
  match wordsOfLine line with
  | [] => [""]
  | w :: ws => (wrapFill width [w] w.length ws).map joinWords

/-! ### `render_text` -/

/-- The inner loop of `render_text` over one source line's wrapped pieces:
piece `j > 0` is preceded by a newline and the continuation indent. -/
def emitWrapped (indent : String) : List String → List Chunk
  | [] => []
  | w :: ws =>
      Chunk.text w ::
        ws.foldr (fun l acc =>
          Chunk.newline :: Chunk.text indent :: Chunk.text l :: acc) []

/-- The loop of `render_text` over the source lines.  `first` records
whether this is the line at index 0; a non-final line is followed by a
newline and leaves the cursor at line start; the final line leaves the
cursor mid-line.  Returns the emitted chunks and the final `at_line_start`. -/
def renderTextLoop (effWidth : Nat) (indent : String) :
    Bool → Bool → List String → List Chunk × Bool
  | als, _, [] => ([], als)
  | als, first, [line] =>
      let pre :=
        if als = true ∧ indent ≠ "" ∧ first = false then [Chunk.text indent]
        else []
      (pre ++ emitWrapped indent (wrap line effWidth), false)
  | als, first, line :: rest =>
      let pre :=
        if als = true ∧ indent ≠ "" ∧ first = false then [Chunk.text indent]
        else []
      let tailRes := renderTextLoop effWidth indent true false rest
      (pre ++ emitWrapped indent (wrap line effWidth) ++
        (Chunk.newline :: tailRes.1), tailRes.2)

/-- `render_text` from `src/main.rs`: derive the continuation indent from
the list stack, trim surrounding newlines, and wrap each line to the budget
less the indent width. -/
def render_text (text : String) (width : Nat)
    (list_stack : List (Option Nat × Nat)) (at_line_start : Bool) :
    List Chunk × Bool :=
  let current_indent :=
    match list_stack with
    | [] => ""
    | _ :: _ => strRepeat "  " ((list_stack.length - 1) + 1)
  let t := trimNewlines text
  if t = "" then ([], at_line_start)
  else
    renderTextLoop (width - current_indent.length) current_indent
      at_line_start true (rustLines t)

/-! ### `render_code_block` -/

/-- `render_code_block` from `src/main.rs`, on the path where the external
`bat` highlighter is unavailable (the highlighter is an external
collaborator; its success path delegates all printing to it).  A code
block that is empty after trimming emits nothing; otherwise a dim top
border of one corner glyph and 50 dashes, each code line behind a dim bar,
and a matching bottom border. -/
def render_code_block (code : String) (language : String) : List Chunk :=
  let _ := language
  if rustTrim code = "" then []
  else
    Chunk.style DIM :: Chunk.text ("┌" ++ strRepeat "─" 50) :: Chunk.newline ::
      (rustLines code).foldr
        (fun line acc =>
          Chunk.style DIM :: Chunk.text "│" :: Chunk.reset ::
            Chunk.text (" " ++ line) :: Chunk.newline :: acc)
        [Chunk.style DIM, Chunk.text ("└" ++ strRepeat "─" 50), Chunk.reset,
          Chunk.newline]

/-! ### The render state machine -/

/-- `flush_newlines` from `src/main.rs`: emit `max(pending, min_newlines)`
newline characters and reset the pending counter to 0. -/
def flush_newlines (pending : Nat) (min_newlines : Nat) : List Chunk × Nat :=
  (List.replicate (Nat.max pending min_newlines) Chunk.newline, 0)

/-- The structural markdown events consumed by `render_markdown`
(the `pulldown_cmark` events the match arms inspect). -/
inductive MdEvent
  | startParagraph
  | startHeading (level : Nat)
  | startBlockQuote
  | startCodeBlock (fenced : Option String)
  | startList (startNum : Option Nat)
  | startItem
  | startEmphasis
  | startStrong
  | startStrikethrough
  | startLink (destUrl : String)
  | endParagraph
  | endHeading
  | endBlockQuote
  | endCodeBlock
  | endList
  | endItem
  | endEmphasis
  | endStrong
  | endStrikethrough
  | endLink
  | textEv (s : String)
  | codeEv (s : String)
  | hardBreak
  | softBreak
  | ruleEv
  | htmlEv (s : String)
deriving DecidableEq

/-- The mutable locals of `render_markdown`.  The list stack holds
`(start_num, indent_level)` frames, head = top (Rust `Vec` push/pop at the
end); counters are `u64`, modelled as naturals that wrap at `2 ^ 64`. -/
structure RenderState where
  code_buffer : String
  code_language : String
  in_code_block : Bool
  list_stack : List (Option Nat × Nat)
  link_stack : List String
  pending_newlines : Nat
  at_line_start : Bool
  last_was_list_item : Bool
deriving DecidableEq

/-- The state at the top of `render_markdown`. -/
def initState : RenderState :=
  { code_buffer := ""
    code_language := "text"
    in_code_block := false
    list_stack := []
    link_stack := []
    pending_newlines := 0
    at_line_start := true
    last_was_list_item := false }

/-- The heading marker for a level (`HeadingLevel` has exactly levels
1 through 6). -/
def headingMark (level : Nat) : String :=
  match level with
  | 1 => "# "
  | 2 => "## "
  | 3 => "### "
  | 4 => "#### "
  | 5 => "##### "
  | _ => "###### "

/-- One iteration of the event loop of `render_markdown`: the updated
state and the chunks printed for this event. -/
def stepEvent (wrapWidth : Nat) (s : RenderState) :
    MdEvent → RenderState × List Chunk
  | .startParagraph =>
      if s.at_line_start = false ∧ s.last_was_list_item = false then
        ({ s with pending_newlines := Nat.max s.pending_newlines 1 }, [])
      else (s, [])
  | .startHeading level =>
      let f := flush_newlines s.pending_newlines 2
      ({ s with pending_newlines := f.2, at_line_start := false },
        f.1 ++ [Chunk.style BOLD, Chunk.style HEADING_COLOR,
          Chunk.text (headingMark level)])
  | .startBlockQuote =>
      let f := flush_newlines s.pending_newlines 1
      ({ s with pending_newlines := f.2, at_line_start := true }, f.1)
  | .startCodeBlock kind =>
      let f := flush_newlines s.pending_newlines 1
      let lang :=
        match kind with
        | some l => if l = "" then "txt" else l
        | none => "txt"
      ({ s with pending_newlines := f.2, in_code_block := true,
                code_language := lang }, f.1)
  | .startList startNum =>
      match s.list_stack with
      | [] =>
          let f := flush_newlines s.pending_newlines 1
          ({ s with pending_newlines := f.2,
                    list_stack := [(startNum, 0)] }, f.1)
      | top :: rest =>
          ({ s with pending_newlines := Nat.max s.pending_newlines 1,
                    list_stack :=
                      (startNum, (top :: rest).length) :: top :: rest }, [])
  | .startItem =>
      let nl : List Chunk :=
        if s.at_line_start = false then [Chunk.newline] else []
      let indent := strRepeat "  " (s.list_stack.length - 1)
      let popped :=
        match s.list_stack with
        | (some num, d) :: rest =>
            (((some ((num + 1) % 2 ^ 64), d) :: rest : List (Option Nat × Nat)),
              [Chunk.text indent, Chunk.style MAGENTA,
                Chunk.text (fmtWidth2 num ++ ". "), Chunk.reset])
        | other =>
            (other,
              [Chunk.text indent, Chunk.style MAGENTA,
                Chunk.text (" " ++ LIST_ITEM_BULLET ++ " "), Chunk.reset])
      ({ s with list_stack := popped.1, at_line_start := false,
                last_was_list_item := true, pending_newlines := 0 },
        nl ++ popped.2)
  | .startEmphasis => (s, [Chunk.style ITALIC])
  | .startStrong => (s, [Chunk.style BOLD, Chunk.style YELLOW])
  | .startStrikethrough => (s, [Chunk.style STRIKETHROUGH])
  | .startLink destUrl =>
      ({ s with link_stack := destUrl :: s.link_stack },
        [Chunk.style BLUE, Chunk.text "["])
  | .endParagraph => (s, [])
  | .endHeading =>
      ({ s with pending_newlines := Nat.max s.pending_newlines 2,
                at_line_start := true }, [Chunk.reset])
  | .endBlockQuote =>
      ({ s with pending_newlines := Nat.max s.pending_newlines 1,
                at_line_start := true }, [])
  | .endCodeBlock =>
      ({ s with in_code_block := false, code_buffer := "",
                code_language := "text",
                pending_newlines := Nat.max s.pending_newlines 1,
                at_line_start := true },
        render_code_block s.code_buffer s.code_language)
  | .endList =>
      match s.list_stack.tail with
      | [] =>
          ({ s with list_stack := [],
                    pending_newlines := Nat.max s.pending_newlines 1,
                    last_was_list_item := false, at_line_start := true }, [])
      | top :: rest =>
          ({ s with list_stack := top :: rest, at_line_start := true }, [])
  | .endItem => (s, [])
  | .endEmphasis => (s, [Chunk.reset])
  | .endStrong => (s, [Chunk.reset])
  | .endStrikethrough => (s, [Chunk.reset])
  | .endLink =>
      match s.link_stack with
      | url :: rest =>
          ({ s with link_stack := rest },
            [Chunk.text "](", Chunk.style BLUE, Chunk.text url, Chunk.reset,
              Chunk.text ")"])
      | [] => (s, [Chunk.text "]"])
  | .textEv t =>
      if s.in_code_block = true then
        ({ s with code_buffer := s.code_buffer ++ t }, [])
      else
        let f := flush_newlines s.pending_newlines 0
        let r := render_text t wrapWidth s.list_stack s.at_line_start
        ({ s with pending_newlines := f.2, at_line_start := r.2 },
          f.1 ++ r.1)
  | .codeEv t =>
      ({ s with at_line_start := false },
        [Chunk.style KEYWORD_COLOR, Chunk.text ("\x60" ++ t ++ "\x60"),
          Chunk.reset])
  | .hardBreak => ({ s with at_line_start := true }, [Chunk.newline])
  | .softBreak =>
      (s, if s.at_line_start = false then [Chunk.text " "] else [])
  | .ruleEv =>
      let f := flush_newlines s.pending_newlines 1
      ({ s with pending_newlines := Nat.max f.2 1, at_line_start := true },
        f.1 ++ [Chunk.style DIM, Chunk.text (strRepeat "─" (Nat.min wrapWidth 50)),
          Chunk.reset, Chunk.newline])
  | .htmlEv h =>
      if rustTrim h ≠ "" ∧ h.startsWith "<" = false then
        let f := flush_newlines s.pending_newlines 0
        ({ s with pending_newlines := f.2, at_line_start := false },
          f.1 ++ [Chunk.text h])
      else (s, [])

/-- The event loop: fold `stepEvent` over the events, concatenating the
printed chunks. -/
def runEvents (wrapWidth : Nat) : RenderState → List MdEvent →
    RenderState × List Chunk
  | s, [] => (s, [])
  | s, e :: es =>
      let r := stepEvent wrapWidth s e
      let r' := runEvents wrapWidth r.1 es
      (r'.1, r.2 ++ r'.2)

/-- `render_markdown` from `src/main.rs`, from the event sequence on: run
the loop from the initial state and apply the final cleanup (a newline if
the cursor is mid-line). -/
def render_markdown (wrapWidth : Nat) (events : List MdEvent) : List Chunk :=
  let r := runEvents wrapWidth initState events
  r.2 ++ (if r.1.at_line_start = false then [Chunk.newline] else [])

/-- The wrap-width policy of `render_markdown`:
`(cols * 3 / 4).min(100)`. -/
def wrapWidthOf (cols : Nat) : Nat := Nat.min (cols * 3 / 4) 100

/-- One list-item step of the state machine (used to iterate items of a
list). -/
def itemStep (wrapWidth : Nat) (s : RenderState) : RenderState :=
  (stepEvent wrapWidth s .startItem).1

/-- The renderer state after consuming a list of events from the initial
state. -/
def stateAfter (wrapWidth : Nat) (es : List MdEvent) : RenderState :=
  (runEvents wrapWidth initState es).1

/-! ### C1: newline coalescing takes the maximum -/

/-- C1: `flush_newlines` emits exactly `max(pending, min)` newline
characters and resets the pending counter to 0; consequently two adjacent
block elements requesting pending-newline counts 1 and 2 (here: a block
quote end requesting 1, then a heading start flushing with minimum 2) are
separated by exactly 2 newlines, never 3. -/
theorem C1_newline_coalescing (p m : Nat) :
    (flush_newlines p m).1 = List.replicate (Nat.max p m) Chunk.newline ∧
    (flush_newlines p m).1.length = Nat.max p m ∧
    (flush_newlines p m).2 = 0 ∧
    countNewlines (stepEvent 80
      ((stepEvent 80 { initState with at_line_start := false }
        .endBlockQuote).1) (.startHeading 1)).2 = 2 := by
  refine ⟨rfl, ?_, rfl, by decide⟩
  simp [flush_newlines]

/-! ### C2: ordered list counters -/

theorem strRepeat_length (s : String) (n : Nat) :
    (strRepeat s n).length = n * s.length := by
  induction n with
  | zero => simp [strRepeat]
  | succ n ih => simp [strRepeat, String.length_append, ih, Nat.succ_mul]; omega

theorem list_stack_after_items (w d : Nat) (rest : List (Option Nat × Nat)) :
    ∀ j N (s : RenderState), s.list_stack = (some N, d) :: rest →
      N + j < 2 ^ 64 →
      ((itemStep w)^[j] s).list_stack = (some (N + j), d) :: rest := by
  intro j
  induction j with
  | zero => intro N s hs _; simpa using hs
  | succ j ih =>
      intro N s hs hj
      rw [Function.iterate_succ_apply]
      have hstep : (itemStep w s).list_stack =
          (some ((N + 1) % 2 ^ 64), d) :: rest := by
        simp [itemStep, stepEvent, hs]
      rw [Nat.mod_eq_of_lt (by omega)] at hstep
      have h2 := ih (N + 1) (itemStep w s) hstep (by omega)
      rw [show N + (j + 1) = N + 1 + j from by omega]
      exact h2

/-- C2: for an ordered list whose List-Start supplied start number `N`
(top list frame `(some N, d)`), the `k`-th item event renders the counter
value `N + k - 1`: its marker text is that number right-justified to two
columns followed by `". "`.  Counters are `u64`; the hypothesis keeps the
`k` increments inside the `u64` range. -/
theorem C2_ordered_list_counter (w N d k : Nat) (rest : List (Option Nat × Nat))
    (s : RenderState) (hs : s.list_stack = (some N, d) :: rest)
    (hk : 1 ≤ k) (hN : N + k ≤ 2 ^ 64) :
    Chunk.text (fmtWidth2 (N + k - 1) ++ ". ") ∈
      (stepEvent w ((itemStep w)^[k - 1] s) .startItem).2 := by
  have hstack := list_stack_after_items w d rest (k - 1) N s hs (by omega)
  have hemit : (stepEvent w ((itemStep w)^[k - 1] s) .startItem).2 =
      (if ((itemStep w)^[k - 1] s).at_line_start = false then [Chunk.newline]
        else []) ++
        [Chunk.text (strRepeat "  " (((itemStep w)^[k - 1] s).list_stack.length - 1)),
          Chunk.style MAGENTA, Chunk.text (fmtWidth2 (N + (k - 1)) ++ ". "),
          Chunk.reset] := by
    simp [stepEvent, hstack]
  rw [hemit, show N + (k - 1) = N + k - 1 from by omega]
  simp

/-- Witness for C2: in a list started at 1, the 2nd item renders counter 2. -/
theorem C2_witness :
    Chunk.text (fmtWidth2 2 ++ ". ") ∈
      (stepEvent 60 ((itemStep 60)^[2 - 1]
        { initState with list_stack := [(some 1, 0)] }) .startItem).2 :=
  C2_ordered_list_counter 60 1 0 2 []
    { initState with list_stack := [(some 1, 0)] } rfl (by decide) (by norm_num)

/-! ### C3: item indent is two spaces per nesting depth -/

/-- C3: a list item emitted while the list stack has nesting depth `d`
(root list = depth 0, so stack length `d + 1`) prints an indent of exactly
`2 × d` space characters before its marker. -/
theorem C3_item_indent (w : Nat) (s : RenderState) (d : Nat)
    (h : s.list_stack.length = d + 1) :
    (∃ marker, (stepEvent w s .startItem).2 =
      (if s.at_line_start = false then [Chunk.newline] else []) ++
        Chunk.text (strRepeat "  " d) :: marker) ∧
    (strRepeat "  " d).length = 2 * d := by
  constructor
  · obtain ⟨top, rest, hs⟩ : ∃ top rest, s.list_stack = top :: rest := by
      cases hl : s.list_stack with
      | nil => rw [hl] at h; simp at h
      | cons a b => exact ⟨a, b, rfl⟩
    have hrest : rest.length = d := by
      rw [hs] at h; simpa using h
    obtain ⟨num, dd⟩ := top
    cases num with
    | none =>
        refine ⟨[Chunk.style MAGENTA,
          Chunk.text (" " ++ LIST_ITEM_BULLET ++ " "), Chunk.reset], ?_⟩
        simp [stepEvent, hs, hrest]
    | some n =>
        refine ⟨[Chunk.style MAGENTA, Chunk.text (fmtWidth2 n ++ ". "),
          Chunk.reset], ?_⟩
        simp [stepEvent, hs, hrest]
  · rw [strRepeat_length, show ("  " : String).length = 2 from rfl]
    omega

/-- Witness for C3: an item at nesting depth 1 is indented by two spaces. -/
theorem C3_witness :
    (∃ marker, (stepEvent 60
      { initState with list_stack := [(none, 1), (none, 0)] } .startItem).2 =
      (if ({ initState with list_stack := [(none, 1), (none, 0)] }
          : RenderState).at_line_start = false then [Chunk.newline] else []) ++
        Chunk.text (strRepeat "  " 1) :: marker) ∧
    (strRepeat "  " 1).length = 2 * 1 :=
  C3_item_indent 60 { initState with list_stack := [(none, 1), (none, 0)] } 1 rfl

/-! ### C4: link end with empty stack degrades to a bare bracket -/

/-- C4: a link-end event with an empty link stack prints exactly the
literal `]` (no URL, no failure) and the loop continues with the next
events; with a non-empty stack it pops the URL and prints `](url)` with
the URL in link color. -/
theorem C4_unbalanced_link (w : Nat) (s : RenderState) :
    (s.link_stack = [] →
      (stepEvent w s .endLink).2 = [Chunk.text "]"] ∧
      (stepEvent w s .endLink).1 = s ∧
      ∀ es, (runEvents w s (.endLink :: es)).2 =
        (stepEvent w s .endLink).2 ++
          (runEvents w (stepEvent w s .endLink).1 es).2) ∧
    (∀ url rest, s.link_stack = url :: rest →
      (stepEvent w s .endLink).2 =
        [Chunk.text "](", Chunk.style BLUE, Chunk.text url, Chunk.reset,
          Chunk.text ")"] ∧
      (stepEvent w s .endLink).1.link_stack = rest) := by
  constructor
  · intro h
    refine ⟨by simp [stepEvent, h], by simp [stepEvent, h], fun es => rfl⟩
  · intro url rest h
    exact ⟨by simp [stepEvent, h], by simp [stepEvent, h]⟩

/-- Witness for C4: both the empty-stack and the popping behavior at
concrete states. -/
theorem C4_witness :
    (stepEvent 60 initState .endLink).2 = [Chunk.text "]"] ∧
    (stepEvent 60 { initState with link_stack := ["u"] } .endLink).2 =
      [Chunk.text "](", Chunk.style BLUE, Chunk.text "u", Chunk.reset,
        Chunk.text ")"] :=
  ⟨((C4_unbalanced_link 60 initState).1 rfl).1,
    ((C4_unbalanced_link 60 { initState with link_stack := ["u"] }).2
      "u" [] rfl).1⟩

/-! ### C8: the code accumulator resets after every code block -/

/-- The accumulator invariant: outside a code block the buffer is empty
and the language is the default. -/
def accInv (s : RenderState) : Prop :=
  s.in_code_block = false → s.code_buffer = "" ∧ s.code_language = "text"

theorem accInv_step (w : Nat) (s : RenderState) (e : MdEvent) (h : accInv s) :
    accInv (stepEvent w s e).1 := by
  cases e <;> simp only [stepEvent, accInv] at h ⊢ <;>
    first
      | (intro hc; exact h hc)
      | (split <;> intro hc <;> simp_all)
      | (intro hc; simp_all)

theorem accInv_stateAfter (w : Nat) (es : List MdEvent) :
    accInv (stateAfter w es) := by
  suffices h : ∀ s, accInv s → accInv (runEvents w s es).1 from
    h initState (fun _ => ⟨rfl, rfl⟩)
  induction es with
  | nil => intro s h; exact h
  | cons e es ih => intro s h; exact ih _ (accInv_step w s e h)

/-- C8: after every code-block-end event the buffer is empty and the
language equals "text"; consequently at every reachable point outside a
code block the accumulator holds no text and the default language. -/
theorem C8_code_accumulator_reset (w : Nat) (s : RenderState)
    (es : List MdEvent) :
    ((stepEvent w s .endCodeBlock).1.code_buffer = "" ∧
      (stepEvent w s .endCodeBlock).1.code_language = "text") ∧
    ((stateAfter w es).in_code_block = false →
      (stateAfter w es).code_buffer = "" ∧
      (stateAfter w es).code_language = "text") :=
  ⟨⟨rfl, rfl⟩, fun h => accInv_stateAfter w es h⟩

/-- Witness for C8: after a concrete code block the accumulator is reset. -/
theorem C8_witness :
    (stateAfter 60 [.startCodeBlock (some "rs"), .textEv "x",
      .endCodeBlock]).code_buffer = "" ∧
    (stateAfter 60 [.startCodeBlock (some "rs"), .textEv "x",
      .endCodeBlock]).code_language = "text" :=
  (C8_code_accumulator_reset 60 initState
    [.startCodeBlock (some "rs"), .textEv "x", .endCodeBlock]).2 (by decide)

/-! ### C9: list end with empty stack is a harmless no-op pop -/

/-- C9: a list-end event with an empty list stack leaves the stack empty,
prints nothing, and the loop continues with the remaining events (the pop
is total: `Vec::pop` on an empty vector returns `None`). -/
theorem C9_unbalanced_list_end (w : Nat) (s : RenderState)
    (es : List MdEvent) (h : s.list_stack = []) :
    (stepEvent w s .endList).1.list_stack = [] ∧
    (stepEvent w s .endList).2 = [] ∧
    (runEvents w s (.endList :: es)).2 =
      (stepEvent w s .endList).2 ++
        (runEvents w (stepEvent w s .endList).1 es).2 := by
  refine ⟨?_, ?_, rfl⟩ <;> simp [stepEvent, h]

/-- Witness for C9 at the initial (empty-stack) state. -/
theorem C9_witness :
    (stepEvent 60 initState .endList).1.list_stack = [] ∧
    (stepEvent 60 initState .endList).2 = [] :=
  ⟨(C9_unbalanced_list_end 60 initState [] rfl).1,
    (C9_unbalanced_list_end 60 initState [] rfl).2.1⟩

/-! ### C10: paragraph spacing after list items -/

/-- C10: a paragraph-start event requests a pending blank line (raising
the pending count to at least 1) exactly when output is not at line start
and the last rendered block was not a list item; while
`last_was_list_item` is set (from an item until the outermost list ends)
a paragraph start changes nothing; and `last_was_list_item` survives every
event except a list end that empties the stack. -/
theorem C10_paragraph_spacing (w : Nat) (s : RenderState) (e : MdEvent) :
    ((s.at_line_start = true ∨ s.last_was_list_item = true) →
      (stepEvent w s .startParagraph).1 = s ∧
      (stepEvent w s .startParagraph).2 = []) ∧
    (s.at_line_start = false → s.last_was_list_item = false →
      (stepEvent w s .startParagraph).1.pending_newlines =
        Nat.max s.pending_newlines 1 ∧
      1 ≤ (stepEvent w s .startParagraph).1.pending_newlines) ∧
    (s.last_was_list_item = true → (e = .endList → 2 ≤ s.list_stack.length) →
      (stepEvent w s e).1.last_was_list_item = true) := by
  refine ⟨?_, ?_, ?_⟩
  · intro h
    rcases h with h | h <;> constructor <;> simp [stepEvent, h]
  · intro h1 h2
    constructor <;> simp [stepEvent, h1, h2, Nat.le_max_right]
  · intro h hlen
    cases e
    case endList =>
        have h2 := hlen rfl
        obtain ⟨a, b, t, hl⟩ :
            ∃ a b t, s.list_stack = a :: b :: t := by
          cases hl : s.list_stack with
          | nil => rw [hl] at h2; simp at h2
          | cons a l =>
              cases l with
              | nil => rw [hl] at h2; simp at h2
              | cons b t => exact ⟨a, b, t, rfl⟩
        simp [stepEvent, hl, h]
    all_goals simp only [stepEvent]
    all_goals (try split)
    all_goals simp_all

/-- A mid-list state: cursor mid-line right after a list item. -/
def c10State : RenderState :=
  { initState with at_line_start := false, last_was_list_item := true,
                   list_stack := [(none, 0)] }

/-- Witness for C10: after a list item, a paragraph start leaves the state
unchanged, and a soft break preserves the list-item flag. -/
theorem C10_witness :
    (stepEvent 60 c10State .startParagraph).1 = c10State ∧
    (stepEvent 60 c10State .softBreak).1.last_was_list_item = true :=
  ⟨((C10_paragraph_spacing 60 _ .softBreak).1 (Or.inr rfl)).1,
    (C10_paragraph_spacing 60 _ .softBreak).2.2 rfl
      (fun hc => MdEvent.noConfusion hc)⟩

/-! ### C5: the fallback code frame's width -/

/-- The visible width of the rendered frame's top border (the first output
line of `render_code_block`). -/
def frameTopWidth (code language : String) : Nat :=
  ((splitOnNl (charsOf (render_code_block code language))).headD []).length

/-- Visible width of the widest content line of a code block. -/
def maxCodeLineWidth (code : String) : Nat :=
  maxNat ((rustLines code).map String.length)

theorem splitOnNl_append (l₁ l₂ : List Char) (h : ∀ c ∈ l₁, c ≠ '\n') :
    splitOnNl (l₁ ++ '\n' :: l₂) = l₁ :: splitOnNl l₂ := by
  induction l₁ with
  | nil => simp [splitOnNl]
  | cons c t ih =>
      have hc : c ≠ '\n' := h c (by simp)
      have ih' := ih (fun x hx => h x (by simp [hx]))
      simp [splitOnNl, ih', hc]

/-- Counterexample to C5 as stated: a non-empty code block consisting of a
single 60-character line.  The fallback frame's top border has visible
width 51 (a corner glyph plus 50 dashes), which is smaller than the widest
content line, so the frame width is not bounded below by the content. -/
theorem C5_counterexample :
    rustTrim (strRepeat "a" 60) ≠ "" ∧
    ¬ (40 ≤ frameTopWidth (strRepeat "a" 60) "text" ∧
       maxCodeLineWidth (strRepeat "a" 60) ≤
         frameTopWidth (strRepeat "a" 60) "text" ∧
       ("text" : String).length + 4 ≤
         frameTopWidth (strRepeat "a" 60) "text") := by
  constructor
  · decide
  · decide

/-- C5 as amended: for every non-empty code block rendered without the
external highlighter, the frame's border width is the constant 51 — one
corner glyph plus 50 filler dashes — independent of the content lines and
of the language tag; in particular it is at least 40, but it is not bounded
below by the widest content line nor by the tag width plus 4. -/
theorem C5_frame_width (code language : String) (h : rustTrim code ≠ "") :
    frameTopWidth code language = 51 ∧ 40 ≤ frameTopWidth code language := by
  have hfw : frameTopWidth code language = 51 := by
    unfold frameTopWidth
    simp only [render_code_block, if_neg h]
    simp only [charsOf, chunkChars, List.nil_append, List.singleton_append,
      List.append_assoc, List.cons_append]
    rw [splitOnNl_append _ _ (by decide)]
    simp only [List.headD_cons]
    decide
  exact ⟨hfw, by omega⟩

/-- Witness for the amended C5 at a concrete one-character code block. -/
theorem C5_witness :
    frameTopWidth "x" "text" = 51 ∧ 40 ≤ frameTopWidth "x" "text" :=
  C5_frame_width "x" "text" (by decide)

/-! ### C6: plain-paragraph round trip -/

/-- The inline events of a text-only paragraph: one text event per word,
separated by soft breaks. -/
def paraBody : List String → List MdEvent
  | [] => []
  | [x] => [.textEv x]
  | x :: xs => .textEv x :: .softBreak :: paraBody xs

/-- A full text-only paragraph event sequence. -/
def paraEvents (ws : List String) : List MdEvent :=
  .startParagraph :: (paraBody ws ++ [.endParagraph])

theorem mk_toList (s : String) : String.mk s.toList = s := rfl

theorem append_eq_mk (a b : String) :
    a ++ b = String.mk (a.toList ++ b.toList) := rfl

theorem dropWhile_nl_eq_self (l : List Char) (h : ∀ c ∈ l, c ≠ '\n') :
    l.dropWhile (fun c => c = '\n') = l := by
  cases l with
  | nil => rfl
  | cons c t => simp [List.dropWhile_cons, h c (by simp)]

theorem trimNewlines_eq_self (s : String) (h : ∀ c ∈ s.toList, c ≠ '\n') :
    trimNewlines s = s := by
  unfold trimNewlines
  rw [dropWhile_nl_eq_self _ h,
    dropWhile_nl_eq_self _ (fun c hc => h c (by simpa using hc)),
    List.reverse_reverse, mk_toList]

theorem splitOnNl_no_nl (l : List Char) (h : ∀ c ∈ l, c ≠ '\n') :
    splitOnNl l = [l] := by
  induction l with
  | nil => rfl
  | cons c t ih =>
      simp [splitOnNl, ih (fun x hx => h x (by simp [hx])), h c (by simp)]

theorem mem_of_getLast?_eq : ∀ (l : List Char) (c : Char),
    l.getLast? = some c → c ∈ l
  | [], c, h => by simp at h
  | [a], c, h => by
      rw [List.getLast?_singleton] at h
      simp at h
      simp [h]
  | a :: b :: t, c, h => by
      rw [List.getLast?_cons_cons] at h
      exact List.mem_cons_of_mem a (mem_of_getLast?_eq (b :: t) c h)

theorem stripCr_eq_self (l : List Char) (h : ∀ c ∈ l, c ≠ '\r') :
    stripCr l = l := by
  unfold stripCr
  cases hl : l.getLast? with
  | none => simp
  | some c =>
      have hc : c ∈ l := mem_of_getLast?_eq l c hl
      simp [h c hc]

theorem rustLines_single (s : String) (hne : s ≠ "")
    (h : ∀ c ∈ s.toList, c ≠ '\n' ∧ c ≠ '\r') :
    rustLines s = [s] := by
  have hlist : s.toList ≠ [] := fun hl =>
    hne (by rw [← show String.mk s.toList = s from rfl, hl])
  unfold rustLines
  rw [splitOnNl_no_nl _ (fun c hc => (h c hc).1)]
  simp only [List.getLast?_singleton]
  rw [if_neg (by simpa using hlist)]
  rw [List.map_singleton, stripCr_eq_self _ (fun c hc => (h c hc).2),
    mk_toList]

theorem splitOnSpace_no_space (l : List Char) (h : ∀ c ∈ l, c ≠ ' ') :
    splitOnSpace l = [l] := by
  induction l with
  | nil => rfl
  | cons c t ih =>
      simp [splitOnSpace, ih (fun x hx => h x (by simp [hx])), h c (by simp)]

theorem wrap_single_word (s : String) (width : Nat) (hne : s ≠ "")
    (h : ∀ c ∈ s.toList, c ≠ ' ') :
    wrap s width = [s] := by
  have hlist : s.toList ≠ [] := fun hl =>
    hne (by rw [← show String.mk s.toList = s from rfl, hl])
  unfold wrap wordsOfLine
  rw [splitOnSpace_no_space _ h]
  rw [show ([s.toList].filter (fun w => w ≠ [])) = [s.toList] from by
    simp
    exact hlist]
  rw [List.map_singleton, mk_toList]
  simp [wrapFill, joinWords]

theorem charsOf_append (o₁ o₂ : List Chunk) :
    charsOf (o₁ ++ o₂) = charsOf o₁ ++ charsOf o₂ := by
  induction o₁ with
  | nil => rfl
  | cons c t ih => simp [charsOf, ih]

theorem runEvents_append (w : Nat) (s : RenderState) (es₁ es₂ : List MdEvent) :
    runEvents w s (es₁ ++ es₂) =
      ((runEvents w (runEvents w s es₁).1 es₂).1,
        (runEvents w s es₁).2 ++ (runEvents w (runEvents w s es₁).1 es₂).2) := by
  induction es₁ generalizing s with
  | nil => simp [runEvents]
  | cons e es ih => simp [runEvents, ih]

/-- A text event carrying a single plain word (no spaces, newlines or
carriage returns) outside any code block or list emits exactly that word
and puts the cursor mid-line; the pending counter stays 0. -/
theorem step_text_word (w : Nat) (s : RenderState) (t : String)
    (hcb : s.in_code_block = false) (hls : s.list_stack = [])
    (hp : s.pending_newlines = 0) (hne : t ≠ "")
    (hok : ∀ c ∈ t.toList, c ≠ '\n' ∧ c ≠ ' ' ∧ c ≠ '\r') :
    stepEvent w s (.textEv t) =
      ({ s with pending_newlines := 0, at_line_start := false },
        [Chunk.text t]) := by
  have h1 : trimNewlines t = t := trimNewlines_eq_self t (fun c hc => (hok c hc).1)
  have h2 : rustLines t = [t] :=
    rustLines_single t hne (fun c hc => ⟨(hok c hc).1, (hok c hc).2.2⟩)
  have h3 : ∀ ew : Nat, wrap t ew = [t] := fun ew =>
    wrap_single_word t ew hne (fun c hc => (hok c hc).2.1)
  simp [stepEvent, hcb, hls, hp, render_text, h1, hne, h2, renderTextLoop,
    h3, emitWrapped, flush_newlines]

/-- Folding the body of a single-word-per-event paragraph from any state
outside code blocks and lists with no pending newlines: the visible output
is exactly the words joined by single spaces, and the final cursor is
mid-line. -/
theorem runEvents_paraBody (w : Nat) :
    ∀ ws : List String, ws ≠ [] →
      (∀ x ∈ ws, x ≠ "" ∧ ∀ c ∈ x.toList, c ≠ '\n' ∧ c ≠ ' ' ∧ c ≠ '\r') →
      ∀ s : RenderState, s.in_code_block = false → s.list_stack = [] →
        s.pending_newlines = 0 →
        (runEvents w s (paraBody ws)).1 =
          { s with pending_newlines := 0, at_line_start := false } ∧
        charsOf (runEvents w s (paraBody ws)).2 = (joinWords ws).toList := by
  intro ws
  induction ws with
  | nil => intro h; exact absurd rfl h
  | cons x xs ih =>
      intro _ hok s hcb hls hp
      have hx := hok x (by simp)
      cases xs with
      | nil =>
          have hstep := step_text_word w s x hcb hls hp hx.1 hx.2
          constructor
          · simp [paraBody, runEvents, hstep]
          · simp [paraBody, runEvents, hstep, charsOf, chunkChars, joinWords]
      | cons y ys =>
          have hstep := step_text_word w s x hcb hls hp hx.1 hx.2
          have hbody : paraBody (x :: y :: ys) =
              .textEv x :: .softBreak :: paraBody (y :: ys) := rfl
          set s1 : RenderState :=
            { s with pending_newlines := 0, at_line_start := false } with hs1
          have hsb : stepEvent w s1 .softBreak = (s1, [Chunk.text " "]) := by
            simp [stepEvent, hs1]
          have hrec := ih (by simp) (fun z hz => hok z (by simp [hz])) s1
            (by simp [hs1, hcb]) (by simp [hs1, hls]) (by simp [hs1])
          have hstate :
              ({ s1 with pending_newlines := 0, at_line_start := false }
                : RenderState) = s1 := by
            simp [hs1]
          rw [hstate] at hrec
          constructor
          · simp [hbody, runEvents, hstep, hsb, hrec.1]
          · simp [hbody, runEvents, hstep, hsb, charsOf_append, charsOf,
              chunkChars, hrec.2, joinWords]

/-- Counterexample to C6 as stated: at column budget 60, a paragraph of
two 50-character words separated by a soft break renders on one physical
line of visible width 101 — each text event is wrapped independently and
the soft-break space is not counted, so the configured budget is
exceeded. -/
theorem C6_counterexample :
    60 < maxLineWidth (render_markdown 60
      (paraEvents [strRepeat "a" 50, strRepeat "b" 50])) := by
  decide

/-- C6 as amended: for a text-only paragraph whose nonempty plain words
arrive as one text event each, separated only by soft breaks, stripping
all escape sequences from the rendered output yields exactly the original
words joined by single spaces followed by the final newline — the word
sequence is reproduced and no word is split — but the output line's width
is not bounded by the column budget (see the counterexample), because
each text event is wrapped independently and soft-break spaces bypass the
wrapper. -/
theorem C6_paragraph_text (w : Nat) (ws : List String) (hws : ws ≠ [])
    (hok : ∀ x ∈ ws, x ≠ "" ∧ ∀ c ∈ x.toList, c ≠ '\n' ∧ c ≠ ' ' ∧ c ≠ '\r') :
    strippedOutput (render_markdown w (paraEvents ws)) =
      joinWords ws ++ "\n" := by
  have hpara : stepEvent w initState .startParagraph = (initState, []) := by
    simp [stepEvent, initState]
  have hbody := runEvents_paraBody w ws hws hok initState rfl rfl rfl
  unfold render_markdown paraEvents
  rw [show runEvents w initState
      (.startParagraph :: (paraBody ws ++ [.endParagraph])) =
      ((runEvents w initState (paraBody ws ++ [.endParagraph])).1,
        [] ++ (runEvents w initState (paraBody ws ++ [.endParagraph])).2)
    from by simp [runEvents, hpara]]
  rw [runEvents_append]
  rw [hbody.1]
  have hend : runEvents w
      ({ initState with pending_newlines := 0, at_line_start := false })
      [.endParagraph] =
      ({ initState with pending_newlines := 0, at_line_start := false },
        []) := by
    simp [runEvents, stepEvent]
  rw [hend]
  unfold strippedOutput
  simp only [List.nil_append, List.append_nil]
  rw [charsOf_append, hbody.2, append_eq_mk]
  simp [charsOf, chunkChars, String.toList]

/-- Witness for the amended C6 on a concrete two-word paragraph. -/
theorem C6_witness :
    strippedOutput (render_markdown 60 (paraEvents ["hello", "world"])) =
      joinWords ["hello", "world"] ++ "\n" :=
  C6_paragraph_text 60 ["hello", "world"] (by decide) (by decide)

/-! ### C7: style escapes are balanced by resets -/

/-- Tag kinds, for the start/end nesting discipline of the event source. -/
inductive TagKind
  | paragraph
  | heading
  | blockQuote
  | codeBlock
  | list
  | item
  | emphasis
  | strong
  | strikethrough
  | link
deriving DecidableEq

/-- The tag a start event opens, if any. -/
def openKind : MdEvent → Option TagKind
  | .startParagraph => some .paragraph
  | .startHeading _ => some .heading
  | .startBlockQuote => some .blockQuote
  | .startCodeBlock _ => some .codeBlock
  | .startList _ => some .list
  | .startItem => some .item
  | .startEmphasis => some .emphasis
  | .startStrong => some .strong
  | .startStrikethrough => some .strikethrough
  | .startLink _ => some .link
  | _ => none

/-- The tag an end event closes, if any. -/
def closeKind : MdEvent → Option TagKind
  | .endParagraph => some .paragraph
  | .endHeading => some .heading
  | .endBlockQuote => some .blockQuote
  | .endCodeBlock => some .codeBlock
  | .endList => some .list
  | .endItem => some .item
  | .endEmphasis => some .emphasis
  | .endStrong => some .strong
  | .endStrikethrough => some .strikethrough
  | .endLink => some .link
  | _ => none

/-- Nesting check with an explicit stack of open tags. -/
def nestOk : List TagKind → List MdEvent → Bool
  | stack, [] => stack.isEmpty
  | stack, e :: es =>
      match openKind e with
      | some k => nestOk (k :: stack) es
      | none =>
          match closeKind e with
          | some k =>
              match stack with
              | [] => false
              | k' :: rest => if k = k' then nestOk rest es else false
          | none => nestOk stack es

/-- Well-nested event sequences: every start tag is matched by its end
tag, properly nested — the shape the external markdown parser guarantees
for the sequences it feeds to `render_markdown`. -/
def WellNested (es : List MdEvent) : Prop := nestOk [] es = true

/-- The tags whose start arm prints a style-start escape sequence. -/
def stylingKind : TagKind → Bool
  | .heading => true
  | .emphasis => true
  | .strong => true
  | .strikethrough => true
  | .link => true
  | _ => false

/-- Number of open link tags on the nesting stack. -/
def countLinkTags (T : List TagKind) : Nat :=
  (T.filter (fun k => k = TagKind.link)).length

/-- Chunks that are neither style-start nor reset escapes. -/
def neutralChunk : Chunk → Bool
  | .text _ => true
  | .newline => true
  | _ => false

/-- Scanning a reversed output: `true` when a style chunk is found before
any reset. -/
def debtRev : List Chunk → Bool
  | [] => false
  | .style _ :: _ => true
  | .reset :: _ => false
  | .text _ :: rest => debtRev rest
  | .newline :: rest => debtRev rest

/-- An output owes a reset exactly when some style chunk occurs after the
last reset chunk. -/
def styleDebt (out : List Chunk) : Bool := debtRev out.reverse

theorem debtRev_neutral_append (o r : List Chunk)
    (h : ∀ c ∈ o, neutralChunk c = true) :
    debtRev (o ++ r) = debtRev r := by
  induction o with
  | nil => rfl
  | cons c t ih =>
      have ht := ih (fun x hx => h x (by simp [hx]))
      cases c with
      | text u => simpa [debtRev] using ht
      | newline => simpa [debtRev] using ht
      | style u => simpa [neutralChunk] using h (Chunk.style u) (by simp)
      | reset => simpa [neutralChunk] using h Chunk.reset (by simp)

theorem styleDebt_append_neutral (out o : List Chunk)
    (h : ∀ c ∈ o, neutralChunk c = true) :
    styleDebt (out ++ o) = styleDebt out := by
  unfold styleDebt
  rw [List.reverse_append]
  exact debtRev_neutral_append _ _ (fun c hc => h c (by simpa using hc))

theorem styleDebt_append_reset (out o₁ o₂ : List Chunk)
    (h : ∀ c ∈ o₂, neutralChunk c = true) :
    styleDebt (out ++ (o₁ ++ Chunk.reset :: o₂)) = false := by
  unfold styleDebt
  simp only [List.reverse_append, List.reverse_cons, List.append_assoc]
  rw [debtRev_neutral_append _ _ (fun c hc => h c (by simpa using hc))]
  rfl

theorem styleDebt_append_nil (out : List Chunk) :
    styleDebt (out ++ []) = styleDebt out := by
  rw [List.append_nil]

theorem replicate_newline_neutral (n : Nat) :
    ∀ c ∈ List.replicate n Chunk.newline, neutralChunk c = true := by
  intro c hc
  rw [List.eq_of_mem_replicate hc]
  rfl

theorem foldr_wrapped_neutral (indent : String) (ws : List String) :
    ∀ c ∈ ws.foldr (fun l acc =>
      Chunk.newline :: Chunk.text indent :: Chunk.text l :: acc) [],
      neutralChunk c = true := by
  induction ws with
  | nil => simp
  | cons u t ih =>
      intro c hc
      simp only [List.foldr_cons, List.mem_cons] at hc
      rcases hc with rfl | rfl | rfl | hc
      · rfl
      · rfl
      · rfl
      · exact ih c hc

theorem emitWrapped_neutral (indent : String) (ls : List String) :
    ∀ c ∈ emitWrapped indent ls, neutralChunk c = true := by
  cases ls with
  | nil => simp [emitWrapped]
  | cons u t =>
      intro c hc
      simp only [emitWrapped, List.mem_cons] at hc
      rcases hc with rfl | hc
      · rfl
      · exact foldr_wrapped_neutral indent t c hc

theorem renderTextLoop_neutral (effW : Nat) (indent : String) :
    ∀ (lines : List String) (als first : Bool),
      ∀ c ∈ (renderTextLoop effW indent als first lines).1,
        neutralChunk c = true := by
  intro lines
  induction lines with
  | nil => intro als first c hc; simp [renderTextLoop] at hc
  | cons line rest ih =>
      intro als first c hc
      cases rest with
      | nil =>
          simp only [renderTextLoop, List.mem_append] at hc
          rcases hc with hc | hc
          · split at hc
            · simp only [List.mem_singleton] at hc; subst hc; rfl
            · simp at hc
          · exact emitWrapped_neutral indent _ c hc
      | cons l2 t =>
          simp only [renderTextLoop, List.mem_append, List.mem_cons] at hc
          rcases hc with (hc | hc) | rfl | hc
          · split at hc
            · simp only [List.mem_singleton] at hc; subst hc; rfl
            · simp at hc
          · exact emitWrapped_neutral indent _ c hc
          · rfl
          · exact ih true false c hc

theorem render_text_neutral (t : String) (w : Nat)
    (ls : List (Option Nat × Nat)) (als : Bool) :
    ∀ c ∈ (render_text t w ls als).1, neutralChunk c = true := by
  intro c hc
  simp only [render_text] at hc
  split at hc
  · simp at hc
  · exact renderTextLoop_neutral _ _ _ _ _ c hc

theorem foldr_code_lines (ls : List String) (base : List Chunk) :
    ls.foldr (fun line acc =>
      Chunk.style DIM :: Chunk.text "│" :: Chunk.reset ::
        Chunk.text (" " ++ line) :: Chunk.newline :: acc) base =
    (ls.foldr (fun line acc =>
      Chunk.style DIM :: Chunk.text "│" :: Chunk.reset ::
        Chunk.text (" " ++ line) :: Chunk.newline :: acc) []) ++ base := by
  induction ls with
  | nil => rfl
  | cons l t ih => simp [List.foldr_cons, ih]

theorem styleDebt_code_block (out : List Chunk) (code lang : String) :
    styleDebt (out ++ render_code_block code lang) =
      if rustTrim code = "" then styleDebt out else false := by
  by_cases h : rustTrim code = ""
  · rw [if_pos h]
    rw [show render_code_block code lang = [] from by
      simp [render_code_block, h]]
    exact styleDebt_append_nil out
  · rw [if_neg h]
    unfold render_code_block
    rw [if_neg h, foldr_code_lines]
    set body := (rustLines code).foldr (fun line acc =>
      Chunk.style DIM :: Chunk.text "│" :: Chunk.reset ::
        Chunk.text (" " ++ line) :: Chunk.newline :: acc) [] with hb
    have hshape : Chunk.style DIM :: Chunk.text ("┌" ++ strRepeat "─" 50) ::
        Chunk.newline :: (body ++ [Chunk.style DIM,
          Chunk.text ("└" ++ strRepeat "─" 50), Chunk.reset, Chunk.newline]) =
        (Chunk.style DIM :: Chunk.text ("┌" ++ strRepeat "─" 50) ::
          Chunk.newline :: body ++ [Chunk.style DIM,
            Chunk.text ("└" ++ strRepeat "─" 50)]) ++
          Chunk.reset :: [Chunk.newline] := by
      simp
    rw [hshape]
    exact styleDebt_append_reset out _ _ (by
      intro c hc
      simp only [List.mem_singleton] at hc
      subst hc
      rfl)

theorem countLinkTags_cons_of_ne (k : TagKind) (T : List TagKind)
    (h : ¬ k = TagKind.link) :
    countLinkTags (k :: T) = countLinkTags T := by
  simp [countLinkTags, h]

theorem countLinkTags_cons_link (T : List TagKind) :
    countLinkTags (TagKind.link :: T) = countLinkTags T + 1 := by
  simp [countLinkTags]

/-- Scan an output fragment from the front: `some b` when a style (`true`)
or reset (`false`) decides the debt, `none` when only neutral chunks
occur. -/
def debtScan : List Chunk → Option Bool
  | [] => none
  | .style _ :: _ => some true
  | .reset :: _ => some false
  | .text _ :: rest => debtScan rest
  | .newline :: rest => debtScan rest

theorem debtRev_eq_scan (o r : List Chunk) :
    debtRev (o ++ r) =
      match debtScan o with
      | some b => b
      | none => debtRev r := by
  induction o with
  | nil => rfl
  | cons c t ih => cases c <;> simp [debtScan, debtRev, ih]

theorem styleDebt_append_scan (out o : List Chunk) :
    styleDebt (out ++ o) =
      match debtScan o.reverse with
      | some b => b
      | none => styleDebt out := by
  unfold styleDebt
  rw [List.reverse_append, debtRev_eq_scan]

theorem nestOk_open (k : TagKind) (e : MdEvent) (T : List TagKind)
    (es : List MdEvent) (hopen : openKind e = some k)
    (h : nestOk T (e :: es) = true) : nestOk (k :: T) es = true := by
  simpa [nestOk, hopen] using h

theorem nestOk_close (k : TagKind) (e : MdEvent) (T : List TagKind)
    (es : List MdEvent) (hopen : openKind e = none)
    (hclose : closeKind e = some k) (h : nestOk T (e :: es) = true) :
    ∃ rest, T = k :: rest ∧ nestOk rest es = true := by
  cases T with
  | nil => simp [nestOk, hopen, hclose] at h
  | cons k' rest =>
      simp only [nestOk, hopen, hclose] at h
      by_cases hk : k = k'
      · subst hk
        rw [if_pos rfl] at h
        exact ⟨rest, rfl, h⟩
      · rw [if_neg hk] at h
        simp at h

theorem nestOk_leaf (e : MdEvent) (T : List TagKind) (es : List MdEvent)
    (hopen : openKind e = none) (hclose : closeKind e = none)
    (h : nestOk T (e :: es) = true) : nestOk T es = true := by
  simpa [nestOk, hopen, hclose] using h

theorem styling_mem_cons (k : TagKind) (T : List TagKind)
    (h : ∃ x ∈ T, stylingKind x = true) :
    ∃ x ∈ k :: T, stylingKind x = true := by
  obtain ⟨x, hx, hs⟩ := h
  exact ⟨x, by simp [hx], hs⟩

theorem styling_of_cons_not (k : TagKind) (T : List TagKind)
    (hk : stylingKind k = false)
    (h : ∃ x ∈ k :: T, stylingKind x = true) :
    ∃ x ∈ T, stylingKind x = true := by
  obtain ⟨x, hx, hs⟩ := h
  rcases List.mem_cons.mp hx with rfl | hx'
  · rw [hk] at hs; cases hs
  · exact ⟨x, hx', hs⟩

/-- The central invariant run: processing a well-nested (relative to the
open-tag stack `T`) event list never leaves a style unreset at the end,
provided any current debt is covered by an open styling tag and the open
link tags are covered by the renderer's link stack. -/
theorem styleDebt_run (w : Nat) :
    ∀ (es : List MdEvent) (T : List TagKind) (s : RenderState)
      (out : List Chunk),
      nestOk T es = true →
      (styleDebt out = true → ∃ k ∈ T, stylingKind k = true) →
      countLinkTags T ≤ s.link_stack.length →
      styleDebt (out ++ (runEvents w s es).2) = false := by
  intro es
  induction es with
  | nil =>
      intro T s out hnest hdebt _
      have hT : T = [] := by
        cases T with
        | nil => rfl
        | cons a t => simp [nestOk] at hnest
      subst hT
      rw [show (runEvents w s ([] : List MdEvent)).2 = [] from rfl,
        styleDebt_append_nil]
      cases hdval : styleDebt out with
      | false => rfl
      | true =>
          obtain ⟨k, hk, _⟩ := hdebt hdval
          simp at hk
  | cons e es ih =>
      intro T s out hnest hdebt hlink
      rw [show (runEvents w s (e :: es)).2 =
          (stepEvent w s e).2 ++ (runEvents w (stepEvent w s e).1 es).2
        from rfl, ← List.append_assoc]
      cases e with
      | startParagraph =>
          have hnest' := nestOk_open TagKind.paragraph .startParagraph T es rfl hnest
          have hemit : (stepEvent w s .startParagraph).2 = [] := by
            simp only [stepEvent]
            split <;> rfl
          have hlk : (stepEvent w s .startParagraph).1.link_stack =
              s.link_stack := by
            simp only [stepEvent]
            split <;> rfl
          refine ih _ _ _ hnest' ?_ ?_
          · intro hd
            rw [hemit, styleDebt_append_nil] at hd
            exact styling_mem_cons _ _ (hdebt hd)
          · rw [countLinkTags_cons_of_ne _ _ (by decide), hlk]
            exact hlink
      | startHeading level =>
          have hnest' := nestOk_open TagKind.heading (.startHeading level) T es rfl hnest
          refine ih _ _ _ hnest' ?_ ?_
          · intro _
            exact ⟨TagKind.heading, by simp, rfl⟩
          · rw [countLinkTags_cons_of_ne _ _ (by decide)]
            exact hlink
      | startBlockQuote =>
          have hnest' := nestOk_open TagKind.blockQuote .startBlockQuote T es rfl hnest
          refine ih _ _ _ hnest' ?_ ?_
          · intro hd
            rw [show (stepEvent w s .startBlockQuote).2 =
                List.replicate (Nat.max s.pending_newlines 1) Chunk.newline
              from rfl,
              styleDebt_append_neutral _ _ (replicate_newline_neutral _)] at hd
            exact styling_mem_cons _ _ (hdebt hd)
          · rw [countLinkTags_cons_of_ne _ _ (by decide)]
            exact hlink
      | startCodeBlock kind =>
          have hnest' := nestOk_open TagKind.codeBlock (.startCodeBlock kind) T es rfl hnest
          refine ih _ _ _ hnest' ?_ ?_
          · intro hd
            rw [show (stepEvent w s (.startCodeBlock kind)).2 =
                List.replicate (Nat.max s.pending_newlines 1) Chunk.newline
              from rfl,
              styleDebt_append_neutral _ _ (replicate_newline_neutral _)] at hd
            exact styling_mem_cons _ _ (hdebt hd)
          · rw [countLinkTags_cons_of_ne _ _ (by decide)]
            exact hlink
      | startList startNum =>
          have hnest' := nestOk_open TagKind.list (.startList startNum) T es rfl hnest
          have hneutral : ∀ c ∈ (stepEvent w s (.startList startNum)).2,
              neutralChunk c = true := by
            simp only [stepEvent]
            cases s.list_stack with
            | nil => exact replicate_newline_neutral _
            | cons a t => simp
          have hlk : (stepEvent w s (.startList startNum)).1.link_stack =
              s.link_stack := by
            simp only [stepEvent]
            cases s.list_stack <;> rfl
          refine ih _ _ _ hnest' ?_ ?_
          · intro hd
            rw [styleDebt_append_neutral _ _ hneutral] at hd
            exact styling_mem_cons _ _ (hdebt hd)
          · rw [countLinkTags_cons_of_ne _ _ (by decide), hlk]
            exact hlink
      | startItem =>
          have hnest' := nestOk_open TagKind.item .startItem T es rfl hnest
          have hd' : styleDebt (out ++ (stepEvent w s .startItem).2) =
              false := by
            rw [styleDebt_append_scan]
            simp only [stepEvent]
            rcases s.list_stack with _ | ⟨⟨_ | n, dd⟩, rest⟩ <;>
              simp [debtScan, List.reverse_append]
          refine ih _ _ _ hnest' ?_ ?_
          · intro hd
            rw [hd'] at hd
            simp at hd
          · rw [countLinkTags_cons_of_ne _ _ (by decide)]
            exact hlink
      | startEmphasis =>
          have hnest' := nestOk_open TagKind.emphasis .startEmphasis T es rfl hnest
          refine ih _ _ _ hnest' ?_ ?_
          · intro _
            exact ⟨TagKind.emphasis, by simp, rfl⟩
          · rw [countLinkTags_cons_of_ne _ _ (by decide)]
            exact hlink
      | startStrong =>
          have hnest' := nestOk_open TagKind.strong .startStrong T es rfl hnest
          refine ih _ _ _ hnest' ?_ ?_
          · intro _
            exact ⟨TagKind.strong, by simp, rfl⟩
          · rw [countLinkTags_cons_of_ne _ _ (by decide)]
            exact hlink
      | startStrikethrough =>
          have hnest' := nestOk_open TagKind.strikethrough .startStrikethrough T es rfl hnest
          refine ih _ _ _ hnest' ?_ ?_
          · intro _
            exact ⟨TagKind.strikethrough, by simp, rfl⟩
          · rw [countLinkTags_cons_of_ne _ _ (by decide)]
            exact hlink
      | startLink destUrl =>
          have hnest' := nestOk_open TagKind.link (.startLink destUrl) T es rfl hnest
          refine ih _ _ _ hnest' ?_ ?_
          · intro _
            exact ⟨TagKind.link, by simp, rfl⟩
          · rw [countLinkTags_cons_link,
              show (stepEvent w s (.startLink destUrl)).1.link_stack =
                destUrl :: s.link_stack from rfl]
            simpa using Nat.succ_le_succ hlink
      | endParagraph =>
          obtain ⟨rest, rfl, hnest'⟩ :=
            nestOk_close TagKind.paragraph .endParagraph T es rfl rfl hnest
          refine ih _ _ _ hnest' ?_ ?_
          · intro hd
            rw [show (stepEvent w s .endParagraph).2 = [] from rfl,
              styleDebt_append_nil] at hd
            exact styling_of_cons_not _ _ (by decide) (hdebt hd)
          · rw [← countLinkTags_cons_of_ne TagKind.paragraph rest (by decide)]
            exact hlink
      | endHeading =>
          obtain ⟨rest, rfl, hnest'⟩ :=
            nestOk_close TagKind.heading .endHeading T es rfl rfl hnest
          have hd' : styleDebt (out ++ (stepEvent w s .endHeading).2) =
              false := by
            rw [styleDebt_append_scan]
            simp [stepEvent, debtScan]
          refine ih _ _ _ hnest' ?_ ?_
          · intro hd
            rw [hd'] at hd
            simp at hd
          · rw [← countLinkTags_cons_of_ne TagKind.heading rest (by decide)]
            exact hlink
      | endBlockQuote =>
          obtain ⟨rest, rfl, hnest'⟩ :=
            nestOk_close TagKind.blockQuote .endBlockQuote T es rfl rfl hnest
          refine ih _ _ _ hnest' ?_ ?_
          · intro hd
            rw [show (stepEvent w s .endBlockQuote).2 = [] from rfl,
              styleDebt_append_nil] at hd
            exact styling_of_cons_not _ _ (by decide) (hdebt hd)
          · rw [← countLinkTags_cons_of_ne TagKind.blockQuote rest (by decide)]
            exact hlink
      | endCodeBlock =>
          obtain ⟨rest, rfl, hnest'⟩ :=
            nestOk_close TagKind.codeBlock .endCodeBlock T es rfl rfl hnest
          have hcb : styleDebt (out ++ (stepEvent w s .endCodeBlock).2) =
              if rustTrim s.code_buffer = "" then styleDebt out else false := by
            rw [show (stepEvent w s .endCodeBlock).2 =
                render_code_block s.code_buffer s.code_language from rfl]
            exact styleDebt_code_block out _ _
          refine ih _ _ _ hnest' ?_ ?_
          · intro hd
            rw [hcb] at hd
            by_cases hc : rustTrim s.code_buffer = ""
            · rw [if_pos hc] at hd
              exact styling_of_cons_not _ _ (by decide) (hdebt hd)
            · rw [if_neg hc] at hd
              simp at hd
          · rw [← countLinkTags_cons_of_ne TagKind.codeBlock rest (by decide)]
            exact hlink
      | endList =>
          obtain ⟨rest, rfl, hnest'⟩ :=
            nestOk_close TagKind.list .endList T es rfl rfl hnest
          have hemit : (stepEvent w s .endList).2 = [] := by
            simp only [stepEvent]
            cases s.list_stack.tail <;> rfl
          have hlk : (stepEvent w s .endList).1.link_stack = s.link_stack := by
            simp only [stepEvent]
            cases s.list_stack.tail <;> rfl
          refine ih _ _ _ hnest' ?_ ?_
          · intro hd
            rw [hemit, styleDebt_append_nil] at hd
            exact styling_of_cons_not _ _ (by decide) (hdebt hd)
          · rw [hlk, ← countLinkTags_cons_of_ne TagKind.list rest (by decide)]
            exact hlink
      | endItem =>
          obtain ⟨rest, rfl, hnest'⟩ :=
            nestOk_close TagKind.item .endItem T es rfl rfl hnest
          refine ih _ _ _ hnest' ?_ ?_
          · intro hd
            rw [show (stepEvent w s .endItem).2 = [] from rfl,
              styleDebt_append_nil] at hd
            exact styling_of_cons_not _ _ (by decide) (hdebt hd)
          · rw [← countLinkTags_cons_of_ne TagKind.item rest (by decide)]
            exact hlink
      | endEmphasis =>
          obtain ⟨rest, rfl, hnest'⟩ :=
            nestOk_close TagKind.emphasis .endEmphasis T es rfl rfl hnest
          have hd' : styleDebt (out ++ (stepEvent w s .endEmphasis).2) =
              false := by
            rw [styleDebt_append_scan]
            simp [stepEvent, debtScan]
          refine ih _ _ _ hnest' ?_ ?_
          · intro hd
            rw [hd'] at hd
            simp at hd
          · rw [← countLinkTags_cons_of_ne TagKind.emphasis rest (by decide)]
            exact hlink
      | endStrong =>
          obtain ⟨rest, rfl, hnest'⟩ :=
            nestOk_close TagKind.strong .endStrong T es rfl rfl hnest
          have hd' : styleDebt (out ++ (stepEvent w s .endStrong).2) =
              false := by
            rw [styleDebt_append_scan]
            simp [stepEvent, debtScan]
          refine ih _ _ _ hnest' ?_ ?_
          · intro hd
            rw [hd'] at hd
            simp at hd
          · rw [← countLinkTags_cons_of_ne TagKind.strong rest (by decide)]
            exact hlink
      | endStrikethrough =>
          obtain ⟨rest, rfl, hnest'⟩ :=
            nestOk_close TagKind.strikethrough .endStrikethrough T es rfl rfl
              hnest
          have hd' : styleDebt
              (out ++ (stepEvent w s .endStrikethrough).2) = false := by
            rw [styleDebt_append_scan]
            simp [stepEvent, debtScan]
          refine ih _ _ _ hnest' ?_ ?_
          · intro hd
            rw [hd'] at hd
            simp at hd
          · rw [← countLinkTags_cons_of_ne TagKind.strikethrough rest
              (by decide)]
            exact hlink
      | endLink =>
          obtain ⟨rest, rfl, hnest'⟩ :=
            nestOk_close TagKind.link .endLink T es rfl rfl hnest
          have hlen : 1 ≤ s.link_stack.length := by
            have h1 := hlink
            rw [countLinkTags_cons_link] at h1
            omega
          obtain ⟨url, urls, hurl⟩ : ∃ url urls,
              s.link_stack = url :: urls := by
            cases hu : s.link_stack with
            | nil => rw [hu] at hlen; simp at hlen
            | cons a b => exact ⟨a, b, rfl⟩
          have hd' : styleDebt (out ++ (stepEvent w s .endLink).2) =
              false := by
            rw [styleDebt_append_scan]
            simp [stepEvent, hurl, debtScan]
          refine ih _ _ _ hnest' ?_ ?_
          · intro hd
            rw [hd'] at hd
            simp at hd
          · have hlk : (stepEvent w s .endLink).1.link_stack = urls := by
              simp [stepEvent, hurl]
            rw [hlk]
            have h1 := hlink
            rw [countLinkTags_cons_link, hurl, List.length_cons] at h1
            omega
      | textEv t =>
          have hnest' := nestOk_leaf (.textEv t) T es rfl rfl hnest
          have hneutral : ∀ c ∈ (stepEvent w s (.textEv t)).2,
              neutralChunk c = true := by
            simp only [stepEvent]
            split
            · simp
            · intro c hc
              simp only [List.mem_append] at hc
              rcases hc with hc | hc
              · exact replicate_newline_neutral _ c hc
              · exact render_text_neutral _ _ _ _ c hc
          have hlk : (stepEvent w s (.textEv t)).1.link_stack =
              s.link_stack := by
            simp only [stepEvent]
            split <;> rfl
          refine ih _ _ _ hnest' ?_ ?_
          · intro hd
            rw [styleDebt_append_neutral _ _ hneutral] at hd
            exact hdebt hd
          · rw [hlk]
            exact hlink
      | codeEv t =>
          have hnest' := nestOk_leaf (.codeEv t) T es rfl rfl hnest
          have hd' : styleDebt (out ++ (stepEvent w s (.codeEv t)).2) =
              false := by
            rw [styleDebt_append_scan]
            simp [stepEvent, debtScan]
          refine ih _ _ _ hnest' ?_ ?_
          · intro hd
            rw [hd'] at hd
            simp at hd
          · exact hlink
      | hardBreak =>
          have hnest' := nestOk_leaf .hardBreak T es rfl rfl hnest
          refine ih _ _ _ hnest' ?_ ?_
          · intro hd
            rw [styleDebt_append_neutral _ _ (by
              intro c hc
              simp only [stepEvent, List.mem_singleton] at hc
              subst hc
              rfl)] at hd
            exact hdebt hd
          · exact hlink
      | softBreak =>
          have hnest' := nestOk_leaf .softBreak T es rfl rfl hnest
          refine ih _ _ _ hnest' ?_ ?_
          · intro hd
            rw [styleDebt_append_neutral _ _ (by
              intro c hc
              simp only [stepEvent] at hc
              split at hc
              · simp only [List.mem_singleton] at hc
                subst hc
                rfl
              · simp at hc)] at hd
            exact hdebt hd
          · exact hlink
      | ruleEv =>
          have hnest' := nestOk_leaf .ruleEv T es rfl rfl hnest
          have hd' : styleDebt (out ++ (stepEvent w s .ruleEv).2) =
              false := by
            rw [styleDebt_append_scan]
            simp [stepEvent, debtScan, List.reverse_append]
          refine ih _ _ _ hnest' ?_ ?_
          · intro hd
            rw [hd'] at hd
            simp at hd
          · exact hlink
      | htmlEv h =>
          have hnest' := nestOk_leaf (.htmlEv h) T es rfl rfl hnest
          have hneutral : ∀ c ∈ (stepEvent w s (.htmlEv h)).2,
              neutralChunk c = true := by
            simp only [stepEvent]
            split
            · intro c hc
              simp only [List.mem_append] at hc
              rcases hc with hc | hc
              · exact replicate_newline_neutral _ c hc
              · simp only [List.mem_singleton] at hc
                subst hc
                rfl
            · simp
          have hlk : (stepEvent w s (.htmlEv h)).1.link_stack =
              s.link_stack := by
            simp only [stepEvent]
            split <;> rfl
          refine ih _ _ _ hnest' ?_ ?_
          · intro hd
            rw [styleDebt_append_neutral _ _ hneutral] at hd
            exact hdebt hd
          · rw [hlk]
            exact hlink

theorem styleDebt_concat (out : List Chunk) (x : Chunk) :
    styleDebt (out ++ [x]) =
      match x with
      | .style _ => true
      | .reset => false
      | _ => styleDebt out := by
  rw [styleDebt_append_scan]
  cases x <;> simp [debtScan]

theorem balanced_of_styleDebt (out : List Chunk)
    (h : styleDebt out = false) :
    ∀ (i : Nat) (c : String), out[i]? = some (Chunk.style c) →
      ∃ j : Nat, i < j ∧ out[j]? = some Chunk.reset := by
  induction out using List.reverseRecOn with
  | nil => intro i c hc; simp at hc
  | append_singleton ys x ih =>
      intro i c hc
      cases x with
      | style u =>
          rw [styleDebt_concat] at h
          simp at h
      | reset =>
          have hi : i < ys.length := by
            rcases Nat.lt_trichotomy i ys.length with hlt | heq | hgt
            · exact hlt
            · subst heq
              rw [List.getElem?_concat_length] at hc
              simp at hc
            · rw [List.getElem?_eq_none (by simp; omega)] at hc
              exact Option.noConfusion hc
          exact ⟨ys.length, hi, List.getElem?_concat_length ys Chunk.reset⟩
      | text u =>
          rw [styleDebt_concat] at h
          have hi : i < ys.length := by
            rcases Nat.lt_trichotomy i ys.length with hlt | heq | hgt
            · exact hlt
            · subst heq
              rw [List.getElem?_concat_length] at hc
              simp at hc
            · rw [List.getElem?_eq_none (by simp; omega)] at hc
              exact Option.noConfusion hc
          rw [List.getElem?_append_left hi] at hc
          obtain ⟨j, hj, hjr⟩ := ih h i c hc
          have hjlen : j < ys.length := by
            by_contra hge
            push_neg at hge
            rw [List.getElem?_eq_none hge] at hjr
            exact Option.noConfusion hjr
          exact ⟨j, hj, by rw [List.getElem?_append_left hjlen]; exact hjr⟩
      | newline =>
          rw [styleDebt_concat] at h
          have hi : i < ys.length := by
            rcases Nat.lt_trichotomy i ys.length with hlt | heq | hgt
            · exact hlt
            · subst heq
              rw [List.getElem?_concat_length] at hc
              simp at hc
            · rw [List.getElem?_eq_none (by simp; omega)] at hc
              exact Option.noConfusion hc
          rw [List.getElem?_append_left hi] at hc
          obtain ⟨j, hj, hjr⟩ := ih h i c hc
          have hjlen : j < ys.length := by
            by_contra hge
            push_neg at hge
            rw [List.getElem?_eq_none hge] at hjr
            exact Option.noConfusion hjr
          exact ⟨j, hj, by rw [List.getElem?_append_left hjlen]; exact hjr⟩

/-- C7: for every well-nested input event sequence — the shape the
external markdown parser produces — the complete output of one render
invocation has balanced styling: every style-start escape chunk emitted is
followed, later in that same render's output, by a reset chunk. -/
theorem C7_balanced_styles (w : Nat) (es : List MdEvent)
    (h : WellNested es) :
    ∀ (i : Nat) (c : String),
      (render_markdown w es)[i]? = some (Chunk.style c) →
      ∃ j : Nat, i < j ∧ (render_markdown w es)[j]? = some Chunk.reset := by
  apply balanced_of_styleDebt
  have hmain := styleDebt_run w es [] initState [] h
    (by intro hd; simp [styleDebt, debtRev] at hd)
    (by simp [countLinkTags, initState])
  rw [List.nil_append] at hmain
  show styleDebt ((runEvents w initState es).2 ++
    (if (runEvents w initState es).1.at_line_start = false then
      [Chunk.newline] else [])) = false
  rw [styleDebt_append_neutral _ _ (by
    intro c hc
    split at hc
    · simp only [List.mem_singleton] at hc
      subst hc
      rfl
    · simp at hc)]
  exact hmain

/-- A small well-nested event sequence with an emphasis span. -/
def c7Events : List MdEvent :=
  [.startParagraph, .startEmphasis, .textEv "hi", .endEmphasis,
    .endParagraph]

/-- Witness for C7: the italic style-start at index 0 of the rendered
output of `c7Events` is followed by a reset. -/
theorem C7_witness :
    ∃ j : Nat, 0 < j ∧ (render_markdown 60 c7Events)[j]? = some Chunk.reset :=
  C7_balanced_styles 60 c7Events (by unfold WellNested; decide) 0 ITALIC
    (by decide)

end GeminiCli
